import Mathlib

/-!
Verification of the `ProtectedClass` mechanism (`src/protectedclass.py`).

The embedding models Python attribute names as lists of characters and a
Python instance `__dict__` as an insertion-ordered association list from
names to values.  Every definition below is a direct translation of the
corresponding function or method of `protectedclass.py`; the Python name
is given in each doc comment (several Python names end in words the Lean
development avoids in identifiers, so those are renamed slightly).
-/

/-- A Python attribute name: a string modelled as its list of characters. -/
abbrev Name := List Char

/-- Python attribute values, as far as the claims need them.
`PyVal.none` is Python `None`; `str` and `int` stand for ordinary data. -/
inductive PyVal where
  | none : PyVal
  | str : Name → PyVal
  | int : Int → PyVal
deriving DecidableEq

/-- The one custom error kind of the source: `DunderAttributeError`. -/
inductive PCError where
  | dunderAttributeError : PCError
deriving DecidableEq

instance {ε α : Type} [DecidableEq ε] [DecidableEq α] : DecidableEq (Except ε α) := fun a b =>
  match a, b with
  | .ok x, .ok y =>
    if h : x = y then isTrue (by rw [h]) else isFalse (by intro hc; cases hc; exact h rfl)
  | .error x, .error y =>
    if h : x = y then isTrue (by rw [h]) else isFalse (by intro hc; cases hc; exact h rfl)
  | .ok _, .error _ => isFalse (by intro hc; cases hc)
  | .error _, .ok _ => isFalse (by intro hc; cases hc)

/-- Python `name.startswith('_')`: the first character is an underscore. -/
def starts_underscore (s : Name) : Bool :=
  s.head? == some '_'

/-- Python `name.startswith('__')` (`is_dunder_prefix` in the source):
the first two characters are underscores. -/
def starts_dunder (s : Name) : Bool :=
  s.take 2 == ['_', '_']

/-- Python `name.endswith('__')` (`is_dunder_suffix` in the source):
the last two characters are underscores, i.e. the reversal starts with
two underscores. -/
def ends_dunder (s : Name) : Bool :=
  starts_dunder s.reverse

/-- `is_dunder_attrib` from the source: leading and trailing `__`. -/
def is_dunder_attrib (s : Name) : Bool :=
  starts_dunder s && ends_dunder s

/-- `make_protected_name_prefix(name, ignore=False)` from the source:
if `ignore` and `len(name) > 2` and `name.startswith('__')`, raise
`DunderAttributeError`; otherwise return `'_' + name`.  In Python
`ignore` defaults to `False`; callers relying on the default pass
`false` explicitly here. -/
def make_protected_name (name : Name) (ignore : Bool) : Except PCError Name :=
  if ignore && decide (2 < name.length) && starts_dunder name then
    .error PCError.dunderAttributeError
  else
    .ok ('_' :: name)

/-- `undo_protected_name_prefix(name)` from the source: strip exactly one
leading underscore if present (`name.removeprefix('_')`). -/
def undo_protected_name (name : Name) : Name :=
  if starts_underscore name then name.drop 1 else name

/-- Python `name.lstrip('_').rstrip('_')`: remove every leading and every
trailing underscore.  Used inline throughout the source. -/
def strip_underscores (s : Name) : Name :=
  ((s.dropWhile (· == '_')).reverse.dropWhile (· == '_')).reverse

/-- First-match lookup in an instance `__dict__`, i.e. `d[key]` / `key in d`. -/
def dictGet : List (Name × PyVal) → Name → Option PyVal
  | [], _ => Option.none
  | (k, v) :: rest, key => if k = key then some v else dictGet rest key

/-- Python `d[key] = value`: overwrite the existing entry in place, else
append a new entry (dict insertion order). -/
def dictSet : List (Name × PyVal) → Name → PyVal → List (Name × PyVal)
  | [], key, val => [(key, val)]
  | (k, v) :: rest, key, val =>
    if k = key then (k, val) :: rest else (k, v) :: dictSet rest key val

/-- Python `del d[key]`: remove the entry with that key (dict keys are
unique, so removing every occurrence is the same operation). -/
def dictDel : List (Name × PyVal) → Name → List (Name × PyVal)
  | [], _ => []
  | (k, v) :: rest, key =>
    if k = key then dictDel rest key else (k, v) :: dictDel rest key

/-- The state of one `ProtectedClass` instance: its `__dict__`, plus the
forbidden-name list.  In the source `_getforbiddenlist` recomputes that
list by reflection over `dir(self) ∩ dir(type(self))`; since `dir(self)`
always contains every class attribute, the result is a fixed set
determined by the class (its non-callable, non-dunder class attributes,
i.e. its `@property` accessors), so it is carried here as a constant
component of the state. -/
structure PCState where
  dict : List (Name × PyVal)
  forbidden : List Name
deriving DecidableEq

/-- `ProtectedClass._getforbiddenlist` (see `PCState.forbidden`). -/
def _getforbiddenlist (σ : PCState) : List Name :=
  σ.forbidden

/-- `ProtectedClass._isforbidden(attr)`:
`attr.lstrip('_').rstrip('_') in self._getforbiddenlist()`. -/
def _isforbidden (σ : PCState) (attr : Name) : Bool :=
  (_getforbiddenlist σ).contains (strip_underscores attr)

/-- `ProtectedClass.__setattr__(attr, value)`:
`self.__dict__[f'{attr}'] = value`, the exact key, no transformation. -/
def __setattr__ (σ : PCState) (attr : Name) (value : PyVal) : PCState :=
  { σ with dict := dictSet σ.dict attr value }

/-- One iteration of the loop in `ProtectedClass.__delattr__`: a forbidden
key is refused (only a warning is printed); otherwise `del` is attempted
and a missing key is silently ignored (the `KeyError` is caught). -/
def delattrStep (σ : PCState) (key : Name) : PCState :=
  if _isforbidden σ key then σ else { σ with dict := dictDel σ.dict key }

/-- `ProtectedClass.__delattr__(*attr)`: process each name in order;
no exception ever propagates (all are caught and logged). -/
def __delattr__ (σ : PCState) (attrs : List Name) : PCState :=
  attrs.foldl delattrStep σ

/-- `ProtectedClass.__getattr__(attr)`: return `self.__dict__[attr]` if
present, else `self.__dict__['_' + attr]` if present, else (catching the
`KeyError`) set `self.__dict__[attr] = None` and return `None`.
Returns the possibly-updated state together with the value. -/
def __getattr__ (σ : PCState) (attr : Name) : PCState × PyVal :=
  match dictGet σ.dict attr with
  | some v => (σ, v)
  | Option.none =>
    match dictGet σ.dict ('_' :: attr) with
    | some v => (σ, v)
    | Option.none => (__setattr__ σ attr PyVal.none, PyVal.none)

/-- `ProtectedClass._initprotect(attr, value)`:
`self.__setattr__(f'_{attr}', value)`. -/
def _initprotect (σ : PCState) (attr : Name) (value : PyVal) : PCState :=
  __setattr__ σ ('_' :: attr) value

/-- `ProtectedClass.__init__(*args, **kwargs)`: each positional argument
seeds `_<arg>` with `None` (the argument's own textual form is the name);
each keyword argument `k=v` seeds `_k` with `v`.  `forb` is the
forbidden-name list of the concrete class (see `PCState.forbidden`). -/
def initPC (forb : List Name) (args : List Name) (kwargs : List (Name × PyVal)) : PCState :=
  let σ := args.foldl (fun s a => _initprotect s a PyVal.none) ⟨[], forb⟩
  kwargs.foldl (fun s kv => _initprotect s kv.1 kv.2) σ

/-- `ProtectedClass._hasattr(attr)`: `attr in self.__dict__`. -/
def _hasattr (σ : PCState) (attr : Name) : Bool :=
  (dictGet σ.dict attr).isSome

/-- `ProtectedClass._hasprotectedattr(attr)`: `attr` itself (when it
starts with `_`) is stored, or `_<stripped>` or `__<stripped>` is. -/
def _hasprotectedattr (σ : PCState) (attr : Name) : Bool :=
  if starts_underscore attr && _hasattr σ attr then
    true
  else
    let stripped := strip_underscores attr
    _hasattr σ ('_' :: stripped) || _hasattr σ ('_' :: '_' :: stripped)

/-- `ProtectedClass._hasunprotectedattr(attr)`: the fully stripped
spelling is stored. -/
def _hasunprotectedattr (σ : PCState) (attr : Name) : Bool :=
  _hasattr σ (strip_underscores attr)

/-- `ProtectedClass._updateattr(oldname, newname)` (the spec's `rename`):
read `oldname` via `__getattr__`, write the value under `newname` via
`__setattr__`, delete `oldname` via `__delattr__`.  Each inner hook
catches its own failures, so the method never actually raises (its
`except ... raise` clause is unreachable) and is modelled total. -/
def _updateattr (σ : PCState) (oldname newname : Name) : PCState :=
  let r := __getattr__ σ oldname
  let σ₂ := __setattr__ r.1 newname r.2
  __delattr__ σ₂ [oldname]

/-- The body of the `try` block of one `protect` loop iteration:
`old = undo_protected_name_prefix(arg); new = make_protected_name_prefix(old);
self._updateattr(old, new)`, propagating any error to the handler. -/
def protectTryBody (σ : PCState) (arg : Name) : Except PCError PCState :=
  match make_protected_name (undo_protected_name arg) false with
  | .ok newname => .ok (_updateattr σ (undo_protected_name arg) newname)
  | .error e => .error e

/-- One iteration of the `protect` loop: skip forbidden or not-currently-
unprotected names; the `except` clause swallows any error. -/
def protectStep (σ : PCState) (arg : Name) : PCState :=
  if !_isforbidden σ arg && _hasunprotectedattr σ arg then
    match protectTryBody σ arg with
    | .ok s => s
    | .error _ => σ
  else σ

/-- `ProtectedClass.protect(*attr)`: with no names, iterate over a
snapshot of the current storage keys. -/
def protect (σ : PCState) (attr : List Name) : PCState :=
  let keys := σ.dict.map Prod.fst
  let attrs := if attr.isEmpty then keys else attr
  attrs.foldl protectStep σ

/-- The body of the `try` block of one `unprotect` loop iteration:
`old = make_protected_name_prefix(arg); new = undo_protected_name_prefix(old);
self._updateattr(old, new)`. -/
def unprotectTryBody (σ : PCState) (arg : Name) : Except PCError PCState :=
  match make_protected_name arg false with
  | .ok oldname => .ok (_updateattr σ oldname (undo_protected_name oldname))
  | .error e => .error e

/-- One iteration of the `unprotect` loop: skip forbidden or
not-currently-protected names; the `except` clause swallows any error. -/
def unprotectStep (σ : PCState) (arg : Name) : PCState :=
  if !_isforbidden σ arg && _hasprotectedattr σ arg then
    match unprotectTryBody σ arg with
    | .ok s => s
    | .error _ => σ
  else σ

/-- `ProtectedClass.unprotect(*attr)`: with no names, iterate over a
snapshot of the current storage keys. -/
def unprotect (σ : PCState) (attr : List Name) : PCState :=
  let keys := σ.dict.map Prod.fst
  let attrs := if attr.isEmpty then keys else attr
  attrs.foldl unprotectStep σ

/-- Whether an `Except` result is a success (no exception was raised). -/
def exceptOk : Except PCError PCState → Bool
  | .ok _ => true
  | .error _ => false

/-- A name with no leading and no trailing underscore: the plain spelling
of a logical attribute. -/
def plainN (s : Name) : Bool :=
  !starts_underscore s && !starts_underscore s.reverse

/-- A storage key of the shape the mechanism intends: a plain name or a
plain name carrying exactly one protection underscore. -/
def keyOK (k : Name) : Prop :=
  plainN k = true ∨ ∃ p, plainN p = true ∧ k = '_' :: p

/-- The single-spelling invariant on a `__dict__`: every key is of the
intended shape, and no plain name is stored together with its protected
spelling. -/
def GoodDict (d : List (Name × PyVal)) : Prop :=
  (∀ k, (dictGet d k).isSome = true → keyOK k) ∧
    ∀ p, plainN p = true →
      ¬((dictGet d p).isSome = true ∧ (dictGet d ('_' :: p)).isSome = true)

/-- The single-spelling invariant on an instance state. -/
def GoodState (σ : PCState) : Prop :=
  GoodDict σ.dict

/-- States reachable by construction followed by any sequence of
`protect` / `unprotect` calls. -/
inductive Reachable : PCState → Prop where
  | init (forb args kwargs) : Reachable (initPC forb args kwargs)
  | protectR (σ names) : Reachable σ → Reachable (protect σ names)
  | unprotectR (σ names) : Reachable σ → Reachable (unprotect σ names)

/-- States reachable by construction from plainly-named fields followed by
`protect` / `unprotect` calls whose explicit names are plain. -/
inductive ReachablePlain : PCState → Prop where
  | init (forb args kwargs)
      (ha : ∀ a ∈ args, plainN a = true)
      (hk : ∀ kv ∈ kwargs, plainN kv.1 = true) :
      ReachablePlain (initPC forb args kwargs)
  | protectR (σ names) (h : ReachablePlain σ)
      (hn : ∀ a ∈ names, plainN a = true) :
      ReachablePlain (protect σ names)
  | unprotectR (σ names) (h : ReachablePlain σ)
      (hn : ∀ a ∈ names, plainN a = true) :
      ReachablePlain (unprotect σ names)

/-! ### Lookup lemmas for the dictionary operations -/

theorem dictGet_set (d : List (Name × PyVal)) (k : Name) (v : PyVal) (k' : Name) :
    dictGet (dictSet d k v) k' = if k' = k then some v else dictGet d k' := by
  induction d with
  | nil =>
    by_cases h : k' = k
    · subst h; simp [dictSet, dictGet]
    · simp [dictSet, dictGet, h, Ne.symm h]
  | cons kv rest ih =>
    obtain ⟨a, b⟩ := kv
    by_cases hak : a = k
    · subst hak
      by_cases h : k' = a
      · subst h; simp [dictSet, dictGet]
      · simp [dictSet, dictGet, h, Ne.symm h]
    · by_cases h : k' = a
      · subst h; simp [dictSet, dictGet, hak, Ne.symm hak]
      · simp [dictSet, dictGet, hak, h, Ne.symm h, ih]

theorem dictGet_del (d : List (Name × PyVal)) (k k' : Name) :
    dictGet (dictDel d k) k' = if k' = k then Option.none else dictGet d k' := by
  induction d with
  | nil => by_cases h : k' = k <;> simp [dictDel, dictGet, h]
  | cons kv rest ih =>
    obtain ⟨a, b⟩ := kv
    by_cases hak : a = k
    · subst hak
      by_cases h : k' = a
      · subst h; simp [dictDel, dictGet, ih]
      · simp [dictDel, dictGet, h, Ne.symm h, ih]
    · by_cases h : k' = a
      · subst h; simp [dictDel, dictGet, hak, ih, Ne.symm hak]
      · simp [dictDel, dictGet, hak, h, Ne.symm h, ih]

theorem mem_keys_of_isSome (d : List (Name × PyVal)) (k : Name)
    (h : (dictGet d k).isSome = true) : k ∈ d.map Prod.fst := by
  induction d with
  | nil => simp [dictGet] at h
  | cons kv rest ih =>
    obtain ⟨a, b⟩ := kv
    rw [List.map_cons]
    by_cases hak : a = k
    · subst hak
      exact List.mem_cons_self _ _
    · simp only [dictGet, if_neg hak] at h
      exact List.mem_cons_of_mem _ (ih h)

theorem isSome_of_mem_keys (d : List (Name × PyVal)) (k : Name)
    (h : k ∈ d.map Prod.fst) : (dictGet d k).isSome = true := by
  induction d with
  | nil => simp at h
  | cons kv rest ih =>
    obtain ⟨a, b⟩ := kv
    by_cases hak : a = k
    · subst hak
      simp [dictGet]
    · rw [List.map_cons, List.mem_cons] at h
      rcases h with h | h
      · exact absurd h.symm hak
      · simp only [dictGet, if_neg hak]
        exact ih h

/-! ### Lemmas about the naming utilities -/

theorem starts_underscore_cons (c : Char) (s : Name) :
    starts_underscore (c :: s) = (c == '_') := rfl

theorem dropWhile_underscore_self {s : Name} (h : starts_underscore s = false) :
    s.dropWhile (· == '_') = s := by
  cases s with
  | nil => rfl
  | cons c t =>
    rw [starts_underscore_cons] at h
    simp [List.dropWhile_cons, h]

theorem starts_dropWhile_underscore (l : Name) :
    starts_underscore (l.dropWhile (· == '_')) = false := by
  induction l with
  | nil => rfl
  | cons c t ih =>
    by_cases hc : (c == '_') = true
    · simp [List.dropWhile_cons, hc, ih]
    · rw [Bool.not_eq_true] at hc
      simp [List.dropWhile_cons, hc, starts_underscore_cons]

theorem starts_of_isPrefix {a t : Name} (h : a <+: t)
    (hs : starts_underscore t = false) : starts_underscore a = false := by
  cases a with
  | nil => rfl
  | cons c r =>
    obtain ⟨rest, hrest⟩ := h
    rw [← hrest, List.cons_append, starts_underscore_cons] at hs
    rw [starts_underscore_cons]
    exact hs

theorem starts_strip (s : Name) :
    starts_underscore (strip_underscores s) = false := by
  have h2 : ((s.dropWhile (· == '_')).reverse.dropWhile (· == '_')).reverse <+:
      s.dropWhile (· == '_') := by
    have hsuf : ((s.dropWhile (· == '_')).reverse.dropWhile (· == '_')) <:+
        (s.dropWhile (· == '_')).reverse := List.dropWhile_suffix _
    have := List.reverse_prefix.mpr hsuf
    rwa [List.reverse_reverse] at this
  exact starts_of_isPrefix h2 (starts_dropWhile_underscore s)

theorem starts_rev_strip (s : Name) :
    starts_underscore (strip_underscores s).reverse = false := by
  unfold strip_underscores
  rw [List.reverse_reverse]
  exact starts_dropWhile_underscore _

theorem plain_strip (s : Name) : plainN (strip_underscores s) = true := by
  simp [plainN, starts_strip, starts_rev_strip]

theorem plainN_iff {s : Name} :
    plainN s = true ↔ starts_underscore s = false ∧ starts_underscore s.reverse = false := by
  simp [plainN]

theorem strip_plain {s : Name} (h : plainN s = true) : strip_underscores s = s := by
  obtain ⟨h1, h2⟩ := plainN_iff.mp h
  unfold strip_underscores
  rw [dropWhile_underscore_self h1, dropWhile_underscore_self h2, List.reverse_reverse]

theorem strip_cons_underscore (s : Name) :
    strip_underscores ('_' :: s) = strip_underscores s := by
  unfold strip_underscores
  simp [List.dropWhile_cons]

theorem strip_idem (s : Name) :
    strip_underscores (strip_underscores s) = strip_underscores s :=
  strip_plain (plain_strip s)

theorem undo_cons (s : Name) : undo_protected_name ('_' :: s) = s := by
  simp [undo_protected_name, starts_underscore_cons]

theorem undo_plain {s : Name} (h : starts_underscore s = false) :
    undo_protected_name s = s := by
  simp [undo_protected_name, h]

theorem plain_ne_underscore_cons {p : Name} (hp : plainN p = true) (s : Name) :
    p ≠ '_' :: s := by
  intro h
  subst h
  simp [plainN, starts_underscore_cons] at hp

theorem keyOK_double_false (s : Name) : ¬ keyOK ('_' :: '_' :: s) := by
  rintro (h | ⟨p, hp, he⟩)
  · simp [plainN, starts_underscore_cons] at h
  · rw [List.cons.injEq] at he
    exact plain_ne_underscore_cons hp s he.2.symm

/-! ### The forbidden-name list is never modified by any operation -/

theorem forbidden_setattr (σ : PCState) (a : Name) (v : PyVal) :
    (__setattr__ σ a v).forbidden = σ.forbidden := rfl

theorem forbidden_delattrStep (σ : PCState) (k : Name) :
    (delattrStep σ k).forbidden = σ.forbidden := by
  unfold delattrStep
  split <;> rfl

theorem forbidden_delattr (σ : PCState) (l : List Name) :
    (__delattr__ σ l).forbidden = σ.forbidden := by
  induction l generalizing σ with
  | nil => rfl
  | cons a t ih =>
    show ((a :: t).foldl delattrStep σ).forbidden = σ.forbidden
    rw [List.foldl_cons]
    exact (ih (delattrStep σ a)).trans (forbidden_delattrStep σ a)

theorem forbidden_getattr (σ : PCState) (a : Name) :
    (__getattr__ σ a).1.forbidden = σ.forbidden := by
  unfold __getattr__
  cases dictGet σ.dict a with
  | some v => rfl
  | none =>
    cases dictGet σ.dict ('_' :: a) with
    | some v => rfl
    | none => rfl

theorem forbidden_updateattr (σ : PCState) (a b : Name) :
    (_updateattr σ a b).forbidden = σ.forbidden := by
  unfold _updateattr
  rw [forbidden_delattr, forbidden_setattr, forbidden_getattr]

theorem isforbidden_of_forbidden_eq {σ σ' : PCState}
    (h : σ'.forbidden = σ.forbidden) (k : Name) :
    _isforbidden σ' k = _isforbidden σ k := by
  simp [_isforbidden, _getforbiddenlist, h]

theorem forbidden_protectStep (σ : PCState) (arg : Name) :
    (protectStep σ arg).forbidden = σ.forbidden := by
  unfold protectStep protectTryBody
  split
  · split
    · next s hs =>
      cases hm : make_protected_name (undo_protected_name arg) false with
      | ok newname =>
        rw [hm] at hs
        cases hs
        exact forbidden_updateattr σ _ _
      | error e => rw [hm] at hs; cases hs
    · rfl
  · rfl

theorem forbidden_unprotectStep (σ : PCState) (arg : Name) :
    (unprotectStep σ arg).forbidden = σ.forbidden := by
  unfold unprotectStep unprotectTryBody
  split
  · split
    · next s hs =>
      cases hm : make_protected_name arg false with
      | ok oldname =>
        rw [hm] at hs
        cases hs
        exact forbidden_updateattr σ _ _
      | error e => rw [hm] at hs; cases hs
    · rfl
  · rfl

theorem forbidden_foldl (step : PCState → Name → PCState)
    (h : ∀ s a, (step s a).forbidden = s.forbidden) :
    ∀ (l : List Name) (σ : PCState), (l.foldl step σ).forbidden = σ.forbidden := by
  intro l
  induction l with
  | nil => intro σ; rfl
  | cons a t ih =>
    intro σ
    rw [List.foldl_cons]
    exact (ih (step σ a)).trans (h σ a)

theorem forbidden_protect (σ : PCState) (l : List Name) :
    (protect σ l).forbidden = σ.forbidden := by
  unfold protect
  exact forbidden_foldl protectStep forbidden_protectStep _ σ

theorem forbidden_unprotect (σ : PCState) (l : List Name) :
    (unprotect σ l).forbidden = σ.forbidden := by
  unfold unprotect
  exact forbidden_foldl unprotectStep forbidden_unprotectStep _ σ

/-! ### Unfolding lemmas for `_updateattr` and the loop bodies -/

theorem isforbidden_dict_irrel (d : List (Name × PyVal)) (f : List Name) (σ : PCState)
    (hσ : σ.forbidden = f) (k : Name) :
    _isforbidden ⟨d, f⟩ k = _isforbidden σ k := by
  simp [_isforbidden, _getforbiddenlist, hσ]

theorem updateattr_of_found (σ : PCState) (a b : Name) (v : PyVal)
    (hv : dictGet σ.dict a = some v) (hf : _isforbidden σ a = false) :
    _updateattr σ a b = ⟨dictDel (dictSet σ.dict b v) a, σ.forbidden⟩ := by
  unfold _updateattr __getattr__
  rw [hv]
  show __delattr__ (__setattr__ σ b v) [a] = _
  unfold __delattr__
  rw [List.foldl_cons, List.foldl_nil]
  unfold delattrStep
  rw [isforbidden_of_forbidden_eq (forbidden_setattr σ b v) a, hf]
  simp [__setattr__]

theorem updateattr_of_missing (σ : PCState) (a b : Name)
    (h1 : dictGet σ.dict a = Option.none)
    (h2 : dictGet σ.dict ('_' :: a) = Option.none)
    (hf : _isforbidden σ a = false) :
    _updateattr σ a b =
      ⟨dictDel (dictSet (dictSet σ.dict a PyVal.none) b PyVal.none) a, σ.forbidden⟩ := by
  unfold _updateattr __getattr__
  rw [h1, h2]
  show __delattr__ (__setattr__ (__setattr__ σ a PyVal.none) b PyVal.none) [a] = _
  unfold __delattr__
  rw [List.foldl_cons, List.foldl_nil]
  unfold delattrStep
  rw [show _isforbidden (__setattr__ (__setattr__ σ a PyVal.none) b PyVal.none) a
      = _isforbidden σ a from rfl, hf]
  simp [__setattr__]

theorem protectStep_eq (σ : PCState) (arg : Name) :
    protectStep σ arg =
      if !_isforbidden σ arg && _hasunprotectedattr σ arg then
        _updateattr σ (undo_protected_name arg) ('_' :: undo_protected_name arg)
      else σ := by
  unfold protectStep protectTryBody make_protected_name
  simp

theorem unprotectStep_eq (σ : PCState) (arg : Name) :
    unprotectStep σ arg =
      if !_isforbidden σ arg && _hasprotectedattr σ arg then
        _updateattr σ ('_' :: arg) arg
      else σ := by
  unfold unprotectStep unprotectTryBody make_protected_name
  simp [undo_cons]

/-! ### Preservation of the single-spelling invariant -/

theorem isforbidden_cons (σ : PCState) (s : Name) :
    _isforbidden σ ('_' :: s) = _isforbidden σ s := by
  simp [_isforbidden, strip_cons_underscore]

theorem good_no_double {d : List (Name × PyVal)} (hG : GoodDict d) (s : Name) :
    dictGet d ('_' :: '_' :: s) = Option.none := by
  cases hg : dictGet d ('_' :: '_' :: s) with
  | none => rfl
  | some v => exact absurd (hG.1 _ (by rw [hg]; rfl)) (keyOK_double_false s)

theorem good_move_toProt (d : List (Name × PyVal)) (q : Name) (v : PyVal)
    (hq : plainN q = true) (hG : GoodDict d) :
    GoodDict (dictDel (dictSet d ('_' :: q) v) q) := by
  have hget : ∀ k, dictGet (dictDel (dictSet d ('_' :: q) v) q) k
      = if k = q then Option.none else if k = '_' :: q then some v else dictGet d k := by
    intro k
    rw [dictGet_del, dictGet_set]
  constructor
  · intro k hk
    rw [hget] at hk
    by_cases h1 : k = q
    · rw [if_pos h1] at hk; simp at hk
    · rw [if_neg h1] at hk
      by_cases h2 : k = '_' :: q
      · exact Or.inr ⟨q, hq, h2⟩
      · rw [if_neg h2] at hk
        exact hG.1 k hk
  · rintro p hp ⟨hsp, hspp⟩
    rw [hget] at hsp hspp
    by_cases h1 : p = q
    · rw [if_pos h1] at hsp; simp at hsp
    · rw [if_neg h1, if_neg (plain_ne_underscore_cons hp q)] at hsp
      have h3 : '_' :: p ≠ q := fun he => plain_ne_underscore_cons hq p he.symm
      rw [if_neg h3] at hspp
      by_cases h4 : '_' :: p = '_' :: q
      · injection h4 with _ h5
        exact h1 h5
      · rw [if_neg h4] at hspp
        exact hG.2 p hp ⟨hsp, hspp⟩

theorem good_move_toPlain (d : List (Name × PyVal)) (q : Name) (v : PyVal)
    (hq : plainN q = true) (hG : GoodDict d) :
    GoodDict (dictDel (dictSet d q v) ('_' :: q)) := by
  have hget : ∀ k, dictGet (dictDel (dictSet d q v) ('_' :: q)) k
      = if k = '_' :: q then Option.none else if k = q then some v else dictGet d k := by
    intro k
    rw [dictGet_del, dictGet_set]
  constructor
  · intro k hk
    rw [hget] at hk
    by_cases h1 : k = '_' :: q
    · rw [if_pos h1] at hk; simp at hk
    · rw [if_neg h1] at hk
      by_cases h2 : k = q
      · exact Or.inl (h2 ▸ hq)
      · rw [if_neg h2] at hk
        exact hG.1 k hk
  · rintro p hp ⟨hsp, hspp⟩
    rw [hget] at hsp hspp
    rw [if_neg (plain_ne_underscore_cons hp q)] at hsp
    by_cases h4 : '_' :: p = '_' :: q
    · rw [if_pos h4] at hspp; simp at hspp
    · have h5 : '_' :: p ≠ q := fun he => plain_ne_underscore_cons hq p he.symm
      rw [if_neg h4, if_neg h5] at hspp
      by_cases h2 : p = q
      · exact h4 (by rw [h2])
      · rw [if_neg h2] at hsp
        exact hG.2 p hp ⟨hsp, hspp⟩

theorem good_degenerate (d : List (Name × PyVal)) (p : Name)
    (hp : plainN p = true)
    (hstored : (dictGet d ('_' :: p)).isSome = true) (hG : GoodDict d) :
    GoodDict (dictDel
      (dictSet (dictSet d ('_' :: '_' :: p) PyVal.none) ('_' :: p) PyVal.none)
      ('_' :: '_' :: p)) := by
  have hget : ∀ k,
      dictGet (dictDel
        (dictSet (dictSet d ('_' :: '_' :: p) PyVal.none) ('_' :: p) PyVal.none)
        ('_' :: '_' :: p)) k
      = if k = '_' :: '_' :: p then Option.none
        else if k = '_' :: p then some PyVal.none
        else if k = '_' :: '_' :: p then some PyVal.none
        else dictGet d k := by
    intro k
    rw [dictGet_del, dictGet_set, dictGet_set]
  constructor
  · intro k hk
    rw [hget] at hk
    by_cases h1 : k = '_' :: '_' :: p
    · rw [if_pos h1] at hk; simp at hk
    · rw [if_neg h1] at hk
      by_cases h2 : k = '_' :: p
      · exact Or.inr ⟨p, hp, h2⟩
      · rw [if_neg h2, if_neg h1] at hk
        exact hG.1 k hk
  · rintro r hr ⟨hsr, hsrr⟩
    rw [hget] at hsr hsrr
    rw [if_neg (plain_ne_underscore_cons hr ('_' :: p)),
      if_neg (plain_ne_underscore_cons hr p),
      if_neg (plain_ne_underscore_cons hr ('_' :: p))] at hsr
    by_cases h4 : r = p
    · subst h4
      exact hG.2 r hr ⟨hsr, hstored⟩
    · have h5 : '_' :: r ≠ '_' :: '_' :: p := by
        intro he
        injection he with _ h6
        exact plain_ne_underscore_cons hr p h6
      have h6 : '_' :: r ≠ '_' :: p := by
        intro he
        injection he with _ h7
        exact h4 h7
      rw [if_neg h5, if_neg h6, if_neg h5] at hsrr
      exact hG.2 r hr ⟨hsr, hsrr⟩

theorem protectStep_good (σ : PCState) (arg : Name)
    (hG : GoodState σ) (hk : keyOK arg) : GoodState (protectStep σ arg) := by
  rw [protectStep_eq]
  split
  · next hcond =>
    simp only [Bool.and_eq_true, Bool.not_eq_true'] at hcond
    obtain ⟨hforb, hunprot⟩ := hcond
    rcases hk with hplain | ⟨p, hp, rfl⟩
    · have hundo : undo_protected_name arg = arg :=
        undo_plain (plainN_iff.mp hplain).1
      rw [hundo]
      simp only [_hasunprotectedattr, strip_plain hplain, _hasattr] at hunprot
      obtain ⟨v, hv⟩ := Option.isSome_iff_exists.mp hunprot
      rw [updateattr_of_found σ arg _ v hv hforb]
      exact good_move_toProt σ.dict arg v hplain hG
    · rw [undo_cons]
      simp only [_hasunprotectedattr, strip_cons_underscore, strip_plain hp,
        _hasattr] at hunprot
      obtain ⟨v, hv⟩ := Option.isSome_iff_exists.mp hunprot
      rw [isforbidden_cons] at hforb
      rw [updateattr_of_found σ p _ v hv hforb]
      exact good_move_toProt σ.dict p v hp hG
  · exact hG

theorem unprotectStep_good (σ : PCState) (arg : Name)
    (hG : GoodState σ) (hk : keyOK arg) : GoodState (unprotectStep σ arg) := by
  rw [unprotectStep_eq]
  split
  · next hcond =>
    simp only [Bool.and_eq_true, Bool.not_eq_true'] at hcond
    obtain ⟨hforb, hprot⟩ := hcond
    rcases hk with hplain | ⟨p, hp, rfl⟩
    · have hs : starts_underscore arg = false := (plainN_iff.mp hplain).1
      have hnodd : _hasattr σ ('_' :: '_' :: arg) = false := by
        rw [_hasattr, good_no_double hG arg]
        rfl
      simp only [_hasprotectedattr, hs, Bool.false_and, if_false,
        strip_plain hplain, hnodd, Bool.or_false] at hprot
      rw [_hasattr] at hprot
      obtain ⟨v, hv⟩ := Option.isSome_iff_exists.mp hprot
      have hforb' : _isforbidden σ ('_' :: arg) = false := by
        rw [isforbidden_cons]
        exact hforb
      rw [updateattr_of_found σ ('_' :: arg) arg v hv hforb']
      exact good_move_toPlain σ.dict arg v hplain hG
    · by_cases hst : _hasattr σ ('_' :: p) = true
      · have h1 : dictGet σ.dict ('_' :: '_' :: p) = Option.none :=
          good_no_double hG p
        have h2 : dictGet σ.dict ('_' :: ('_' :: '_' :: p)) = Option.none :=
          good_no_double hG ('_' :: p)
        have hforb' : _isforbidden σ ('_' :: '_' :: p) = false := by
          rw [isforbidden_cons, isforbidden_cons]
          rw [isforbidden_cons] at hforb
          exact hforb
        rw [updateattr_of_missing σ ('_' :: '_' :: p) ('_' :: p) h1 h2 hforb']
        rw [_hasattr] at hst
        exact good_degenerate σ.dict p hp hst hG
      · have hb : _hasattr σ ('_' :: p) = false := by
          rwa [Bool.not_eq_true] at hst
        have hnodd : _hasattr σ ('_' :: '_' :: p) = false := by
          rw [_hasattr, good_no_double hG p]
          rfl
        simp only [_hasprotectedattr, hb, Bool.and_false, if_false,
          strip_cons_underscore, strip_plain hp, hnodd, Bool.or_false] at hprot
        exact absurd hprot (by simp [hb])
  · exact hG

theorem foldl_good (step : PCState → Name → PCState)
    (hstep : ∀ s a, GoodState s → keyOK a → GoodState (step s a)) :
    ∀ (l : List Name) (σ : PCState),
      GoodState σ → (∀ a ∈ l, keyOK a) → GoodState (l.foldl step σ) := by
  intro l
  induction l with
  | nil => intro σ hG _; exact hG
  | cons a t ih =>
    intro σ hG hall
    rw [List.foldl_cons]
    exact ih (step σ a) (hstep σ a hG (hall a (List.mem_cons_self a t)))
      (fun b hb => hall b (List.mem_cons_of_mem a hb))

theorem keys_keyOK {σ : PCState} (hG : GoodState σ) :
    ∀ a ∈ σ.dict.map Prod.fst, keyOK a :=
  fun a ha => hG.1 a (isSome_of_mem_keys σ.dict a ha)

theorem protect_good (σ : PCState) (names : List Name)
    (hG : GoodState σ) (hn : ∀ a ∈ names, plainN a = true) :
    GoodState (protect σ names) := by
  unfold protect
  apply foldl_good protectStep protectStep_good _ σ hG
  by_cases he : names.isEmpty
  · rw [if_pos he]
    exact keys_keyOK hG
  · rw [if_neg he]
    exact fun a ha => Or.inl (hn a ha)

theorem unprotect_good (σ : PCState) (names : List Name)
    (hG : GoodState σ) (hn : ∀ a ∈ names, plainN a = true) :
    GoodState (unprotect σ names) := by
  unfold unprotect
  apply foldl_good unprotectStep unprotectStep_good _ σ hG
  by_cases he : names.isEmpty
  · rw [if_pos he]
    exact keys_keyOK hG
  · rw [if_neg he]
    exact fun a ha => Or.inl (hn a ha)

theorem init_shape (forb : List Name) (args : List Name) (kwargs : List (Name × PyVal))
    (ha : ∀ a ∈ args, plainN a = true)
    (hk : ∀ kv ∈ kwargs, plainN kv.1 = true) :
    ∀ k, (dictGet (initPC forb args kwargs).dict k).isSome = true →
      ∃ p, plainN p = true ∧ k = '_' :: p := by
  have step : ∀ (σ : PCState) (a : Name) (v : PyVal),
      (∀ k, (dictGet σ.dict k).isSome = true → ∃ p, plainN p = true ∧ k = '_' :: p) →
      plainN a = true →
      ∀ k, (dictGet (_initprotect σ a v).dict k).isSome = true →
        ∃ p, plainN p = true ∧ k = '_' :: p := by
    intro σ a v hσ hpa k hk
    simp only [_initprotect, __setattr__] at hk
    rw [dictGet_set] at hk
    by_cases h1 : k = '_' :: a
    · exact ⟨a, hpa, h1⟩
    · rw [if_neg h1] at hk
      exact hσ k hk
  have base : ∀ k, (dictGet (⟨[], forb⟩ : PCState).dict k).isSome = true →
      ∃ p, plainN p = true ∧ k = '_' :: p := by
    intro k hk
    simp [dictGet] at hk
  have hargs : ∀ (l : List Name) (σ : PCState),
      (∀ a ∈ l, plainN a = true) →
      (∀ k, (dictGet σ.dict k).isSome = true → ∃ p, plainN p = true ∧ k = '_' :: p) →
      ∀ k, (dictGet (l.foldl (fun s a => _initprotect s a PyVal.none) σ).dict k).isSome = true →
        ∃ p, plainN p = true ∧ k = '_' :: p := by
    intro l
    induction l with
    | nil => intro σ _ hσ; exact hσ
    | cons a t ih =>
      intro σ hall hσ
      rw [List.foldl_cons]
      exact ih _ (fun b hb => hall b (List.mem_cons_of_mem a hb))
        (step σ a PyVal.none hσ (hall a (List.mem_cons_self a t)))
  have hkw : ∀ (l : List (Name × PyVal)) (σ : PCState),
      (∀ kv ∈ l, plainN kv.1 = true) →
      (∀ k, (dictGet σ.dict k).isSome = true → ∃ p, plainN p = true ∧ k = '_' :: p) →
      ∀ k, (dictGet (l.foldl (fun s kv => _initprotect s kv.1 kv.2) σ).dict k).isSome = true →
        ∃ p, plainN p = true ∧ k = '_' :: p := by
    intro l
    induction l with
    | nil => intro σ _ hσ; exact hσ
    | cons a t ih =>
      intro σ hall hσ
      rw [List.foldl_cons]
      exact ih _ (fun b hb => hall b (List.mem_cons_of_mem a hb))
        (step σ a.1 a.2 hσ (hall a (List.mem_cons_self a t)))
  exact hkw kwargs _ hk (hargs args _ ha base)

theorem init_good (forb : List Name) (args : List Name) (kwargs : List (Name × PyVal))
    (ha : ∀ a ∈ args, plainN a = true)
    (hk : ∀ kv ∈ kwargs, plainN kv.1 = true) :
    GoodState (initPC forb args kwargs) := by
  constructor
  · intro k hkk
    exact Or.inr (init_shape forb args kwargs ha hk k hkk)
  · rintro p hp ⟨hsp, _⟩
    obtain ⟨q, hq, he⟩ := init_shape forb args kwargs ha hk p hsp
    exact plain_ne_underscore_cons hp q he

theorem reachable_good {σ : PCState} (h : ReachablePlain σ) : GoodState σ := by
  induction h with
  | init forb args kwargs ha hk => exact init_good forb args kwargs ha hk
  | protectR σ names _ hn ih => exact protect_good σ names ih hn
  | unprotectR σ names _ hn ih => exact unprotect_good σ names ih hn

/-! ### Remaining helper lemmas -/

theorem two_le_countP (p : Name → Bool) {l : List Name} {a b : Name}
    (ha : a ∈ l) (hb : b ∈ l) (hab : a ≠ b)
    (hpa : p a = true) (hpb : p b = true) : 2 ≤ l.countP p := by
  induction l with
  | nil => cases ha
  | cons c t ih =>
    rw [List.countP_cons]
    rcases List.mem_cons.mp ha with rfl | ha'
    · rcases List.mem_cons.mp hb with rfl | hb'
      · exact absurd rfl hab
      · have h1 : 0 < t.countP p := List.countP_pos_iff.mpr ⟨b, hb', hpb⟩
        rw [if_pos hpa]
        omega
    · rcases List.mem_cons.mp hb with rfl | hb'
      · have h1 : 0 < t.countP p := List.countP_pos_iff.mpr ⟨a, ha', hpa⟩
        rw [if_pos hpb]
        omega
      · have h2 := ih ha' hb'
        by_cases hc : p c = true
        · rw [if_pos hc]; omega
        · rw [if_neg hc]; omega

theorem delattr_preserves_missing (σ : PCState) (l : List Name) (k : Name)
    (h : dictGet σ.dict k = Option.none) :
    dictGet (__delattr__ σ l).dict k = Option.none := by
  induction l generalizing σ with
  | nil => exact h
  | cons a t ih =>
    show dictGet ((a :: t).foldl delattrStep σ).dict k = _
    rw [List.foldl_cons]
    apply ih
    unfold delattrStep
    split
    · exact h
    · show dictGet (dictDel σ.dict a) k = _
      rw [dictGet_del]
      by_cases h1 : k = a
      · rw [if_pos h1]
      · rw [if_neg h1]; exact h

theorem protect_one (σ : PCState) (a : Name) : protect σ [a] = protectStep σ a := by
  unfold protect
  simp

theorem unprotect_one (σ : PCState) (a : Name) : unprotect σ [a] = unprotectStep σ a := by
  unfold unprotect
  simp

/-! ### Claim theorems -/

/-- C4: auto-vivification on read.  For every name `x` stored under
neither its raw spelling nor its prefixed spelling `_x`, the `__getattr__`
hook returns `None` without raising, and as a side effect creates the
storage key `x` (exactly the raw spelling, not the prefixed one) with
value `None`, so that `isStored(x)` (`_hasattr`) is true afterwards. -/
theorem getattr_autovivifies (σ : PCState) (x : Name)
    (h1 : dictGet σ.dict x = Option.none)
    (h2 : dictGet σ.dict ('_' :: x) = Option.none) :
    (__getattr__ σ x).2 = PyVal.none
    ∧ _hasattr (__getattr__ σ x).1 x = true
    ∧ dictGet (__getattr__ σ x).1.dict x = some PyVal.none
    ∧ dictGet (__getattr__ σ x).1.dict ('_' :: x) = Option.none := by
  have hup : __getattr__ σ x = (__setattr__ σ x PyVal.none, PyVal.none) := by
    simp only [__getattr__, h1, h2]
  rw [hup]
  refine ⟨rfl, ?_, ?_, ?_⟩
  · show (dictGet (dictSet σ.dict x PyVal.none) x).isSome = true
    simp [dictGet_set]
  · show dictGet (dictSet σ.dict x PyVal.none) x = some PyVal.none
    simp [dictGet_set]
  · show dictGet (dictSet σ.dict x PyVal.none) ('_' :: x) = Option.none
    rw [dictGet_set, if_neg (List.cons_ne_self '_' x)]
    exact h2

/-- Witness for C4 at the empty instance and the name `x`. -/
theorem getattr_autovivifies_witness :
    (__getattr__ ⟨[], []⟩ ['x']).2 = PyVal.none
    ∧ _hasattr (__getattr__ ⟨[], []⟩ ['x']).1 ['x'] = true
    ∧ dictGet (__getattr__ ⟨[], []⟩ ['x']).1.dict ['x'] = some PyVal.none
    ∧ dictGet (__getattr__ ⟨[], []⟩ ['x']).1.dict ['_', 'x'] = Option.none :=
  getattr_autovivifies ⟨[], []⟩ ['x'] (by decide) (by decide)

/-- C9: the `__setattr__` hook writes the value under exactly the key it
was given — no prefixing or any other transformation — and every other
storage key keeps its previous value. -/
theorem setattr_exact_and_frame (σ : PCState) (n : Name) (v : PyVal) (k : Name)
    (hk : k ≠ n) :
    dictGet (__setattr__ σ n v).dict n = some v
    ∧ dictGet (__setattr__ σ n v).dict k = dictGet σ.dict k := by
  constructor
  · simp [__setattr__, dictGet_set]
  · simp [__setattr__, dictGet_set, hk]

/-- Witness for C9: writing `b` leaves the unrelated key `a` unchanged. -/
theorem setattr_exact_and_frame_witness :
    dictGet (__setattr__ ⟨[(['a'], PyVal.int 1)], []⟩ ['b'] (PyVal.int 2)).dict ['b']
      = some (PyVal.int 2)
    ∧ dictGet (__setattr__ ⟨[(['a'], PyVal.int 1)], []⟩ ['b'] (PyVal.int 2)).dict ['a']
      = dictGet (⟨[(['a'], PyVal.int 1)], []⟩ : PCState).dict ['a'] :=
  setattr_exact_and_frame ⟨[(['a'], PyVal.int 1)], []⟩ ['b'] (PyVal.int 2) ['a'] (by decide)

/-- C8: delete semantics of the `__delattr__` hook.  It never propagates
an exception (it is a total function of the state); every forbidden name
keeps its stored value; every non-forbidden name appearing in the call is
absent from storage afterwards (so a present one is removed and an absent
one is a no-op); and names not mentioned are untouched. -/
theorem delattr_spec (σ : PCState) (names : List Name) (k : Name) :
    (_isforbidden σ k = true →
      dictGet (__delattr__ σ names).dict k = dictGet σ.dict k)
    ∧ (_isforbidden σ k = false → k ∈ names →
      dictGet (__delattr__ σ names).dict k = Option.none)
    ∧ (k ∉ names →
      dictGet (__delattr__ σ names).dict k = dictGet σ.dict k) := by
  induction names generalizing σ with
  | nil =>
    exact ⟨fun _ => rfl, fun _ h => absurd h (List.not_mem_nil k), fun _ => rfl⟩
  | cons a t ih =>
    have hstep : __delattr__ σ (a :: t) = __delattr__ (delattrStep σ a) t := by
      show (a :: t).foldl delattrStep σ = _
      rw [List.foldl_cons]
      rfl
    have hforb_eq : _isforbidden (delattrStep σ a) k = _isforbidden σ k :=
      isforbidden_of_forbidden_eq (forbidden_delattrStep σ a) k
    refine ⟨?_, ?_, ?_⟩
    · intro hf
      rw [hstep, (ih (delattrStep σ a)).1 (by rw [hforb_eq]; exact hf)]
      unfold delattrStep
      split
      · rfl
      · next hna =>
        show dictGet (dictDel σ.dict a) k = _
        rw [dictGet_del]
        by_cases h1 : k = a
        · subst h1
          exact absurd hf hna
        · rw [if_neg h1]
    · intro hf hm
      rw [hstep]
      rcases List.mem_cons.mp hm with rfl | hm'
      · have hone : delattrStep σ k = ⟨dictDel σ.dict k, σ.forbidden⟩ := by
          unfold delattrStep
          rw [hf]
          simp
        rw [hone]
        apply delattr_preserves_missing
        show dictGet (dictDel σ.dict k) k = _
        rw [dictGet_del]
        simp
      · exact (ih (delattrStep σ a)).2.1 (by rw [hforb_eq]; exact hf) hm'
    · intro hm
      have h1 : k ≠ a := fun he => hm (he ▸ List.mem_cons_self a t)
      have h2 : k ∉ t := fun ht => hm (List.mem_cons_of_mem a ht)
      rw [hstep, (ih (delattrStep σ a)).2.2 h2]
      unfold delattrStep
      split
      · rfl
      · show dictGet (dictDel σ.dict a) k = _
        rw [dictGet_del, if_neg h1]

/-- Witness for C8: deleting `a` and the forbidden `c` leaves `c` intact. -/
theorem delattr_spec_witness :
    _isforbidden ⟨[(['a'], PyVal.int 1), (['c'], PyVal.int 2)], [['c']]⟩ ['c'] = true
    ∧ dictGet (__delattr__ ⟨[(['a'], PyVal.int 1), (['c'], PyVal.int 2)], [['c']]⟩
        [['a'], ['c']]).dict ['c']
      = dictGet (⟨[(['a'], PyVal.int 1), (['c'], PyVal.int 2)], [['c']]⟩ : PCState).dict ['c'] :=
  ⟨by decide, (delattr_spec ⟨[(['a'], PyVal.int 1), (['c'], PyVal.int 2)], [['c']]⟩
    [['a'], ['c']] ['c']).1 (by decide)⟩

/-- C7: for any name `n` such that exactly one storage key is a spelling
of `n` (its fully stripped form), `isProtected` (`_hasprotectedattr`) and
`isUnprotected` (`_hasunprotectedattr`) are never both true. -/
theorem protected_unprotected_exclusive (σ : PCState) (n : Name)
    (h : (σ.dict.map Prod.fst).countP
      (fun k => strip_underscores k == strip_underscores n) = 1) :
    ¬(_hasprotectedattr σ n = true ∧ _hasunprotectedattr σ n = true) := by
  rintro ⟨hp, hu⟩
  simp only [_hasunprotectedattr, _hasattr] at hu
  have hmem_u : strip_underscores n ∈ σ.dict.map Prod.fst :=
    mem_keys_of_isSome _ _ hu
  have hpred_u :
      (fun k => strip_underscores k == strip_underscores n) (strip_underscores n) = true := by
    simp [strip_idem]
  simp only [_hasprotectedattr] at hp
  by_cases hc : (starts_underscore n && _hasattr σ n) = true
  · rw [Bool.and_eq_true] at hc
    obtain ⟨hs, hn⟩ := hc
    rw [_hasattr] at hn
    have hmem_n : n ∈ σ.dict.map Prod.fst := mem_keys_of_isSome _ _ hn
    have hne : n ≠ strip_underscores n := by
      intro he
      have hfalse := starts_strip n
      rw [← he] at hfalse
      rw [hfalse] at hs
      cases hs
    have hpred_n : (fun k => strip_underscores k == strip_underscores n) n = true := by
      simp
    have h2 := two_le_countP (fun k => strip_underscores k == strip_underscores n)
      hmem_n hmem_u hne hpred_n hpred_u
    rw [h] at h2
    omega
  · rw [if_neg hc] at hp
    rw [Bool.or_eq_true] at hp
    rcases hp with hA | hB
    · rw [_hasattr] at hA
      have hmem : '_' :: strip_underscores n ∈ σ.dict.map Prod.fst :=
        mem_keys_of_isSome _ _ hA
      have hne : '_' :: strip_underscores n ≠ strip_underscores n :=
        List.cons_ne_self '_' _
      have hpred : (fun k => strip_underscores k == strip_underscores n)
          ('_' :: strip_underscores n) = true := by
        simp [strip_cons_underscore, strip_idem]
      have h2 := two_le_countP (fun k => strip_underscores k == strip_underscores n)
        hmem hmem_u hne hpred hpred_u
      rw [h] at h2
      omega
    · rw [_hasattr] at hB
      have hmem : '_' :: '_' :: strip_underscores n ∈ σ.dict.map Prod.fst :=
        mem_keys_of_isSome _ _ hB
      have hne : '_' :: '_' :: strip_underscores n ≠ strip_underscores n := by
        intro he
        have := congrArg List.length he
        simp at this
        omega
      have hpred : (fun k => strip_underscores k == strip_underscores n)
          ('_' :: '_' :: strip_underscores n) = true := by
        simp [strip_cons_underscore, strip_idem]
      have h2 := two_le_countP (fun k => strip_underscores k == strip_underscores n)
        hmem hmem_u hne hpred hpred_u
      rw [h] at h2
      omega

/-- Witness for C7 at the demo state `{_type: "full"}` and the name `type`. -/
theorem protected_unprotected_exclusive_witness :
    ((⟨[(['_','t'], PyVal.str ['f'])], []⟩ : PCState).dict.map Prod.fst).countP
      (fun k => strip_underscores k == strip_underscores ['t']) = 1
    ∧ ¬(_hasprotectedattr ⟨[(['_','t'], PyVal.str ['f'])], []⟩ ['t'] = true
        ∧ _hasunprotectedattr ⟨[(['_','t'], PyVal.str ['f'])], []⟩ ['t'] = true) :=
  ⟨by decide, protected_unprotected_exclusive ⟨[(['_','t'], PyVal.str ['f'])], []⟩ ['t']
    (by decide)⟩

/-- C1 counterexample: the round-trip law fails when the logical name is
already in the protected state.  `x` is not reserved and not forbidden,
the instance stores `_x = "v"`, yet `protect("x")` (a skip) followed by
`unprotect("x")` leaves the entry under the key `x`: the storage spelling
did not return to its pre-protect state. -/
theorem roundtrip_fails_on_protected_entry :
    is_dunder_attrib ['x'] = false
    ∧ _isforbidden ⟨[(['_','x'], PyVal.str ['v'])], []⟩ ['x'] = false
    ∧ dictGet (⟨[(['_','x'], PyVal.str ['v'])], []⟩ : PCState).dict ['_','x']
      = some (PyVal.str ['v'])
    ∧ dictGet (unprotect (protect ⟨[(['_','x'], PyVal.str ['v'])], []⟩ [['x']])
        [['x']]).dict ['_','x'] = Option.none
    ∧ dictGet (unprotect (protect ⟨[(['_','x'], PyVal.str ['v'])], []⟩ [['x']])
        [['x']]).dict ['x'] = some (PyVal.str ['v']) := by
  decide

/-- C1 (amended): for every plain logical name `n` (no leading or trailing
underscore) that is not forbidden and is **not already in the protected
state** (`_hasprotectedattr` is false before the call), `protect(n)`
followed by `unprotect(n)` restores the stored value and the storage
spelling of `n` — both the lookup of `n` and of `_n` — to their
pre-`protect` state. -/
theorem roundtrip_restores_when_not_protected (σ : PCState) (n : Name)
    (hp : plainN n = true) (hf : _isforbidden σ n = false)
    (hprot : _hasprotectedattr σ n = false) :
    dictGet (unprotect (protect σ [n]) [n]).dict n = dictGet σ.dict n
    ∧ dictGet (unprotect (protect σ [n]) [n]).dict ('_' :: n)
      = dictGet σ.dict ('_' :: n) := by
  have hs : starts_underscore n = false := (plainN_iff.mp hp).1
  have hg1 : dictGet σ.dict ('_' :: n) = Option.none := by
    cases hg : dictGet σ.dict ('_' :: n) with
    | none => rfl
    | some v =>
      have hT : _hasprotectedattr σ n = true := by
        simp [_hasprotectedattr, hs, strip_plain hp, _hasattr, hg]
      rw [hT] at hprot
      cases hprot
  cases hn : dictGet σ.dict n with
  | none =>
    have hP : protect σ [n] = σ := by
      rw [protect_one, protectStep_eq]
      have hcond : (!_isforbidden σ n && _hasunprotectedattr σ n) = false := by
        simp [_hasunprotectedattr, strip_plain hp, _hasattr, hn]
      rw [hcond]
      simp
    have hU : unprotect σ [n] = σ := by
      rw [unprotect_one, unprotectStep_eq]
      have hcond : (!_isforbidden σ n && _hasprotectedattr σ n) = false := by
        simp [hprot]
      rw [hcond]
      simp
    rw [hP, hU]
    exact ⟨hn, rfl⟩
  | some v =>
    have hP : protect σ [n] = ⟨dictDel (dictSet σ.dict ('_' :: n) v) n, σ.forbidden⟩ := by
      rw [protect_one, protectStep_eq]
      have hcond : (!_isforbidden σ n && _hasunprotectedattr σ n) = true := by
        simp [hf, _hasunprotectedattr, strip_plain hp, _hasattr, hn]
      rw [hcond, if_pos rfl, undo_plain hs]
      exact updateattr_of_found σ n ('_' :: n) v hn hf
    have hg1n : dictGet (protect σ [n]).dict ('_' :: n) = some v := by
      rw [hP]
      show dictGet (dictDel (dictSet σ.dict ('_' :: n) v) n) ('_' :: n) = _
      rw [dictGet_del, if_neg (List.cons_ne_self '_' n), dictGet_set, if_pos rfl]
    have hforb1 : _isforbidden (protect σ [n]) n = false := by
      rw [isforbidden_of_forbidden_eq (forbidden_protect σ [n]) n]
      exact hf
    have hU : unprotect (protect σ [n]) [n]
        = ⟨dictDel (dictSet (protect σ [n]).dict n v) ('_' :: n),
            (protect σ [n]).forbidden⟩ := by
      rw [unprotect_one, unprotectStep_eq]
      have hcond : (!_isforbidden (protect σ [n]) n
          && _hasprotectedattr (protect σ [n]) n) = true := by
        simp [hforb1, _hasprotectedattr, hs, strip_plain hp, _hasattr, hg1n]
      rw [hcond, if_pos rfl]
      exact updateattr_of_found (protect σ [n]) ('_' :: n) n v hg1n
        (by rw [isforbidden_cons]; exact hforb1)
    rw [hU]
    constructor
    · show dictGet (dictDel (dictSet (protect σ [n]).dict n v) ('_' :: n)) n = _
      rw [dictGet_del, if_neg (Ne.symm (List.cons_ne_self '_' n)), dictGet_set,
        if_pos rfl]
    · show dictGet (dictDel (dictSet (protect σ [n]).dict n v) ('_' :: n)) ('_' :: n) = _
      rw [dictGet_del, if_pos rfl, hg1]

/-- Witness for the amended C1 at the storage `{x: "v"}`. -/
theorem roundtrip_restores_when_not_protected_witness :
    dictGet (unprotect (protect ⟨[(['x'], PyVal.str ['v'])], []⟩ [['x']]) [['x']]).dict ['x']
      = dictGet (⟨[(['x'], PyVal.str ['v'])], []⟩ : PCState).dict ['x']
    ∧ dictGet (unprotect (protect ⟨[(['x'], PyVal.str ['v'])], []⟩ [['x']]) [['x']]).dict
        ['_','x']
      = dictGet (⟨[(['x'], PyVal.str ['v'])], []⟩ : PCState).dict ['_','x'] :=
  roundtrip_restores_when_not_protected ⟨[(['x'], PyVal.str ['v'])], []⟩ ['x']
    (by decide) (by decide) (by decide)

/-- C2 (code bug): `unprotect()` with no arguments does not rename the
protected entry `_x` to `x`.  On the instance constructed with the
keyword argument `x = "v"` (storage `{_x: "v"}`), the no-argument call
re-prefixes the stored key `_x` to `__x`, auto-vivifies that missing key
to `None`, copies the `None` back onto `_x` and deletes `__x`: afterwards
`x` is still absent and `_x` holds `None` — the value is destroyed and
nothing is unprotected, contradicting the method's own docstring. -/
theorem unprotect_noargs_corrupts_protected_entry :
    unprotect (initPC [] [] [(['x'], PyVal.str ['v'])]) []
      = ⟨[(['_','x'], PyVal.none)], []⟩
    ∧ dictGet (unprotect (initPC [] [] [(['x'], PyVal.str ['v'])]) []).dict ['x']
      = Option.none
    ∧ dictGet (unprotect (initPC [] [] [(['x'], PyVal.str ['v'])]) []).dict ['_','x']
      = some PyVal.none := by
  decide

/-- C3 counterexample: a state with both spellings `x` and `_x` present at
once is reachable: construct with the keyword argument `_x = "v"`
(storage `{__x: "v"}`), then `unprotect("x")` (which copies rather than
moves, leaving `{__x: "v", x: "v"}`), then `unprotect("_x")` (which moves
`__x` to `_x`), giving `{x: "v", _x: "v"}`. -/
theorem dual_spelling_reachable :
    Reachable (unprotect (unprotect (initPC [] [] [(['_','x'], PyVal.str ['v'])])
      [['x']]) [['_','x']])
    ∧ _hasattr (unprotect (unprotect (initPC [] [] [(['_','x'], PyVal.str ['v'])])
      [['x']]) [['_','x']]) ['x'] = true
    ∧ _hasattr (unprotect (unprotect (initPC [] [] [(['_','x'], PyVal.str ['v'])])
      [['x']]) [['_','x']]) ['_','x'] = true :=
  ⟨Reachable.unprotectR _ _ (Reachable.unprotectR _ _ (Reachable.init [] [] _)),
    by decide, by decide⟩

/-- C3 (amended): in every state reachable by construction from plainly
named fields (no leading or trailing underscores) followed by any
sequence of `protect`/`unprotect` calls whose explicit names are plain,
at most one of the two spellings `{p, _p}` of a plain logical name is
present as a storage key. -/
theorem single_spelling_invariant_plain (σ : PCState) (h : ReachablePlain σ)
    (p : Name) (hp : plainN p = true) :
    ¬(_hasattr σ p = true ∧ _hasattr σ ('_' :: p) = true) := by
  have hG := reachable_good h
  rintro ⟨h1, h2⟩
  exact hG.2 p hp ⟨h1, h2⟩

/-- Witness for the amended C3 at a freshly constructed instance. -/
theorem single_spelling_invariant_plain_witness :
    ¬(_hasattr (initPC [] [] [(['x'], PyVal.str ['v'])]) ['x'] = true
      ∧ _hasattr (initPC [] [] [(['x'], PyVal.str ['v'])]) ['_','x'] = true) :=
  single_spelling_invariant_plain _
    (ReachablePlain.init [] [] [(['x'], PyVal.str ['v'])] (by simp) (by decide))
    ['x'] (by decide)

/-- C5 counterexample: the guard of `make_protected_name_prefix` tests for
a leading double underscore, not a single one.  `_ab` has length 3 and
starts with `_`, yet the guarded call succeeds and double-prefixes it to
`__ab` instead of failing with `DunderAttributeError`. -/
theorem guard_ignores_single_underscore :
    2 < (['_','a','b'] : Name).length
    ∧ starts_underscore ['_','a','b'] = true
    ∧ starts_dunder ['_','a','b'] = false
    ∧ make_protected_name ['_','a','b'] true = .ok ['_','_','a','b'] := by
  decide

/-- C5 (amended): `make_protected_name_prefix(name, guard)` fails with
`DunderAttributeError` exactly when the guard is on, the name is longer
than 2 and the name starts with a **double** underscore `__`; in every
other case (including guard off on any name) it returns `'_' + name`. -/
theorem make_protected_name_guard_spec (name : Name) (ig : Bool) :
    (ig = true → 2 < name.length → starts_dunder name = true →
      make_protected_name name ig = .error PCError.dunderAttributeError)
    ∧ (¬(ig = true ∧ 2 < name.length ∧ starts_dunder name = true) →
      make_protected_name name ig = .ok ('_' :: name)) := by
  constructor
  · intro h1 h2 h3
    simp [make_protected_name, h1, h2, h3]
  · intro h
    have hc : (ig && decide (2 < name.length) && starts_dunder name) = false := by
      cases hcc : (ig && decide (2 < name.length) && starts_dunder name) with
      | false => rfl
      | true =>
        rw [Bool.and_eq_true, Bool.and_eq_true] at hcc
        exact absurd ⟨hcc.1.1, of_decide_eq_true hcc.1.2, hcc.2⟩ h
    simp [make_protected_name, hc]

/-- Witness for the amended C5 at the spec's own example `__secret__`. -/
theorem make_protected_name_guard_spec_witness :
    make_protected_name ['_','_','s','e','c','r','e','t','_','_'] true
      = .error PCError.dunderAttributeError
    ∧ make_protected_name ['_','_','s','e','c','r','e','t','_','_'] false
      = .ok ['_','_','_','s','e','c','r','e','t','_','_'] :=
  ⟨(make_protected_name_guard_spec ['_','_','s','e','c','r','e','t','_','_'] true).1
      rfl (by decide) (by decide),
    (make_protected_name_guard_spec ['_','_','s','e','c','r','e','t','_','_'] false).2
      (by simp)⟩

/-- C6 counterexample: during `unprotect` the protection-adding call is
performed on the reserved-looking stored name `__x__` — exactly the
guarded double-protection situation — yet no `DunderAttributeError`
reaches the caller: the guard is invoked with `ignore=False`, the rename
body succeeds, and the call returns normally (silently overwriting the
stored value with `None`). -/
theorem unprotect_swallows_reserved_rename :
    starts_dunder ['_','_','x','_','_'] = true
    ∧ 2 < (['_','_','x','_','_'] : Name).length
    ∧ make_protected_name ['_','_','x','_','_'] true
      = .error PCError.dunderAttributeError
    ∧ unprotectTryBody ⟨[(['_','_','x','_','_'], PyVal.str ['v'])], []⟩
        ['_','_','x','_','_']
      = .ok ⟨[(['_','_','x','_','_'], PyVal.none)], []⟩
    ∧ unprotect ⟨[(['_','_','x','_','_'], PyVal.str ['v'])], []⟩ [['_','_','x','_','_']]
      = ⟨[(['_','_','x','_','_'], PyVal.none)], []⟩ := by
  decide

/-- C6 (amended): `DunderAttributeError` is the only error kind and the
guarded path of `make_protected_name_prefix` is its only raise site, but
it is never surfaced to the caller of `protect`/`unprotect`: those
methods call the naming utility with the guard off, so the per-name
rename body of both loops always succeeds. -/
theorem no_error_escapes_protect_unprotect :
    (∀ (σ : PCState) (arg : Name),
      exceptOk (protectTryBody σ arg) = true ∧ exceptOk (unprotectTryBody σ arg) = true)
    ∧ ∀ (name : Name) (ig : Bool) (e : PCError),
        make_protected_name name ig = .error e →
          e = PCError.dunderAttributeError ∧ ig = true
            ∧ 2 < name.length ∧ starts_dunder name = true := by
  constructor
  · intro σ arg
    constructor
    · simp [protectTryBody, make_protected_name, exceptOk]
    · simp [unprotectTryBody, make_protected_name, exceptOk]
  · intro name ig e h
    unfold make_protected_name at h
    by_cases hc : (ig && decide (2 < name.length) && starts_dunder name) = true
    · rw [if_pos hc] at h
      injection h with he
      rw [Bool.and_eq_true, Bool.and_eq_true] at hc
      exact ⟨he.symm, hc.1.1, of_decide_eq_true hc.1.2, hc.2⟩
    · rw [if_neg hc] at h
      cases h

/-- Witness for the amended C6. -/
theorem no_error_escapes_protect_unprotect_witness :
    exceptOk (protectTryBody ⟨[], []⟩ ['x']) = true
    ∧ exceptOk (unprotectTryBody ⟨[], []⟩ ['x']) = true
    ∧ (PCError.dunderAttributeError = PCError.dunderAttributeError
        ∧ (true : Bool) = true
        ∧ 2 < (['_','_','s','e','c'] : Name).length
        ∧ starts_dunder ['_','_','s','e','c'] = true) :=
  ⟨(no_error_escapes_protect_unprotect.1 ⟨[], []⟩ ['x']).1,
    (no_error_escapes_protect_unprotect.1 ⟨[], []⟩ ['x']).2,
    no_error_escapes_protect_unprotect.2 ['_','_','s','e','c'] true
      PCError.dunderAttributeError (by decide)⟩

/-- C10 counterexample: renaming a missing name to itself does **not**
leave the target stored with `null`.  With `old = new = x` on an empty
store, `_updateattr` vivifies `x` to `None`, overwrites it, and then
deletes it again, so afterwards `x` is not a storage key, contradicting
the claim at the pair `(x, x)`. -/
theorem updateattr_self_rename_no_entry :
    dictGet (⟨[], []⟩ : PCState).dict ['x'] = Option.none
    ∧ dictGet (⟨[], []⟩ : PCState).dict ['_','x'] = Option.none
    ∧ _isforbidden ⟨[], []⟩ ['x'] = false
    ∧ dictGet (_updateattr ⟨[], []⟩ ['x'] ['x']).dict ['x'] = Option.none := by
  decide

/-- C10 (amended): for every pair of **distinct** names `old ≠ new` such
that neither `old` nor `_old` is a storage key and `old` is not
forbidden, `rename` (`_updateattr`) returns normally (it is a total
function: every inner hook catches its own failure) and afterwards `new`
is a storage key holding `null` while `old` is not stored. -/
theorem updateattr_missing_source_vivifies (σ : PCState) (oldname newname : Name)
    (hne : oldname ≠ newname)
    (h1 : dictGet σ.dict oldname = Option.none)
    (h2 : dictGet σ.dict ('_' :: oldname) = Option.none)
    (hf : _isforbidden σ oldname = false) :
    dictGet (_updateattr σ oldname newname).dict newname = some PyVal.none
    ∧ dictGet (_updateattr σ oldname newname).dict oldname = Option.none := by
  rw [updateattr_of_missing σ oldname newname h1 h2 hf]
  constructor
  · show dictGet (dictDel (dictSet (dictSet σ.dict oldname PyVal.none) newname
      PyVal.none) oldname) newname = _
    rw [dictGet_del, if_neg (Ne.symm hne), dictGet_set, if_pos rfl]
  · show dictGet (dictDel (dictSet (dictSet σ.dict oldname PyVal.none) newname
      PyVal.none) oldname) oldname = _
    rw [dictGet_del, if_pos rfl]

/-- Witness for the amended C10 on an empty store and `old = x`, `new = y`. -/
theorem updateattr_missing_source_vivifies_witness :
    dictGet (_updateattr ⟨[], []⟩ ['x'] ['y']).dict ['y'] = some PyVal.none
    ∧ dictGet (_updateattr ⟨[], []⟩ ['x'] ['y']).dict ['x'] = Option.none :=
  updateattr_missing_source_vivifies ⟨[], []⟩ ['x'] ['y']
    (by decide) (by decide) (by decide) (by decide)
